import Mathlib

/-!
# Broadcast hub (`main.go`): frame encoder, subscriber queues, coordinator loop

A shallow embedding of the core of the server-sent-events hub.

* A Go `string` / `[]byte` is a sequence of bytes, `List UInt8`.
* A `*client` is `Option Nat`: `none` is the nil pointer, `some a` points at the
  client stored at address `a` of the heap.  Go is memory safe, so every
  non-nil pointer refers to a client: the heap is a total function.
* `chan []byte` with a buffer is its capacity and its buffered frames, oldest
  first.  Each client owns its channel (`sse` makes a fresh one per client and
  nothing copies it), so the channel is stored inside the client.
* `map[*client]struct{}` is a finite set of pointers.  The order in which
  `range` visits a map is chosen by the runtime, so the loop iteration takes
  that order as an input.
* The three unbuffered channels of the hub are rendezvous points: what the
  loop receives from them is the `Request` given to one iteration.
* Logging is not modelled, but the field reads the log calls make are (they
  dereference the received pointer).
* A call of `sse` is followed through the events that reach its session:
  enqueues by the coordinator and the cases its `select` takes.  Its effects
  (headers, sends to the coordinator, transport writes, flushes) are recorded
  in order; a send is recorded when the loop has received it.
* `broadcast` is the request it sends to the coordinator, as a function of the
  HTTP request.
-/

namespace Sse

/-! ## Strings and bytes -/

/-- A Go string or byte slice. -/
abbrev GoString := List UInt8

/-- The bytes of an ASCII string literal of the source. -/
def ascii (s : String) : GoString :=
  s.toList.map (fun c => UInt8.ofNat c.toNat)

/-- The line break byte, the separator `"\n"`. -/
def nl : UInt8 := 10

/-- Go `strings.Split(s, "\n")`: the pieces of `s` between line breaks, from left
to right.  An input with `k` line breaks gives `k + 1` pieces, empty ones
included; an input without any gives the input alone. -/
def Split : GoString → List GoString
  | [] => [[]]
  | b :: rest =>
    if b = nl then [] :: Split rest
    else
      match Split rest with
      | [] => [[b]]
      | seg :: segs => (b :: seg) :: segs

/-! ## Frame encoder -/

/-- Go `type BroadcastRequest struct { Event string; Data string }` -/
structure BroadcastRequest where
  Event : GoString
  Data : GoString
deriving DecidableEq

/-- Go `func (r BroadcastRequest) Bytes() []byte`: the buffer starts with
`fmt.Fprintf(&buf, "event: %s\n", r.Event)`, the loop appends
`fmt.Fprintf(&buf, "data: %s\n", line)` for each line of the split, and
`buf.WriteString("\n")` ends it. -/
def BroadcastRequest.Bytes (r : BroadcastRequest) : GoString :=
  let buf := ascii "event: " ++ r.Event ++ ascii "\n"
  let buf := (Split r.Data).foldl
    (fun buf line => buf ++ (ascii "data: " ++ line ++ ascii "\n")) buf
  buf ++ ascii "\n"

/-- The lines of a frame: the event line and one data line per piece. -/
def frameLines (event data : GoString) : List GoString :=
  (ascii "event: " ++ event) :: (Split data).map (fun seg => ascii "data: " ++ seg)

/-! ## Subscriber session -/

/-- A buffered `chan []byte`: capacity and buffered frames, oldest first. -/
structure Chan where
  cap : Nat
  buf : List GoString
deriving DecidableEq

/-- Go `make(chan []byte, n)`: an empty channel of capacity `n`. -/
def Chan.make (n : Nat) : Chan := ⟨n, []⟩

/-- Go `type client struct { name string; msg chan []byte }` -/
structure client where
  name : GoString
  msg : Chan
deriving DecidableEq

/-- The client `sse` allocates for a connection:
`&client{name: r.RemoteAddr, msg: make(chan []byte, 8)}`. -/
def newClient (remoteAddr : GoString) : client :=
  ⟨remoteAddr, Chan.make 8⟩

/-- A `*client`; `none` is nil. -/
abbrev ClientPtr := Option Nat

/-- The clients in memory, by address. -/
abbrev Heap := Nat → client

/-- A Go `error`; `none` is the nil error, `some m` an error with message `m`. -/
abbrev GoError := Option GoString

/-- Go `func (c *client) Write(msg []byte) error`: nil receiver gives the error
`nil client`; otherwise the `select` sends on `c.msg` when the buffer has room
and returns nil, and takes the `default` branch, returning `client <name> full`,
when it has none.  The result is the error and the heap afterwards. -/
def client.Write (heap : Heap) (c : ClientPtr) (msg : GoString) : GoError × Heap :=
  match c with
  | none => (some (ascii "nil client"), heap)
  | some a =>
    let cl := heap a
    if cl.msg.buf.length < cl.msg.cap then
      (none, Function.update heap a { cl with msg := { cl.msg with buf := cl.msg.buf ++ [msg] } })
    else
      (some (ascii "client " ++ cl.name ++ ascii " full"), heap)

/-! ## Coordinator -/

/-- The state the loop works on: `h.clients` and the clients in memory. -/
structure State where
  clients : Finset ClientPtr
  heap : Heap

/-- The state `newHub` sets up: the active set starts empty. -/
def newHub (heap : Heap) : State := ⟨∅, heap⟩

/-- What one `select` of the loop receives: a pointer from `h.clientAdd`, a
pointer from `h.clientDel`, or a request from `h.broadcastReq`. -/
inductive Request where
  | clientAdd (c : ClientPtr)
  | clientDel (c : ClientPtr)
  | broadcastReq (br : BroadcastRequest)
deriving DecidableEq

/-- A runtime panic of the loop goroutine. -/
inductive Panic where
  | nilDereference
deriving DecidableEq

/-- The body of `for client := range h.clients { _ = client.Write(msg) }`,
visiting the clients in the order `order`; the error of each write is
discarded. -/
def fanOut (msg : GoString) (order : List ClientPtr) (heap : Heap) : Heap :=
  order.foldl (fun hp c => (client.Write hp c msg).2) heap

/-- One iteration of `func (h *hub) loop()`.  `order` is the order in which the
runtime enumerates `h.clients` should this iteration range over it.  The log
calls of the first two branches read `c.name`, which panics for nil `c`. -/
def loopIter (s : State) (order : List ClientPtr) : Request → Except Panic State
  | .clientAdd c =>
    let s1 : State := { s with clients := insert c s.clients }
    match c with
    | none => .error .nilDereference
    | some _ => .ok s1
  | .clientDel c =>
    let s1 : State := { s with clients := s.clients.erase c }
    match c with
    | none => .error .nilDereference
    | some _ => .ok s1
  | .broadcastReq br =>
    let msg := br.Bytes
    .ok { s with heap := fanOut msg order s.heap }

/-- An order in which `range` may visit the set `clients`: every member once. -/
def IsRange (order : List ClientPtr) (clients : Finset ClientPtr) : Prop :=
  order.Nodup ∧ ∀ c, c ∈ order ↔ c ∈ clients

/-- The loop run over a finite sequence of received requests, each with the
enumeration order the runtime uses in that iteration; a panic ends the run. -/
def runLoop (s : State) : List (List ClientPtr × Request) → Except Panic State
  | [] => .ok s
  | (order, r) :: rest =>
    match loopIter s order r with
    | .ok s1 => runLoop s1 rest
    | .error e => .error e

/-- Every iteration of the run over `evs` from `s` enumerates the active set
of its own state. -/
def ValidRun (s : State) : List (List ClientPtr × Request) → Prop
  | [] => True
  | (order, r) :: rest =>
    IsRange order s.clients ∧
      match loopIter s order r with
      | .ok s1 => ValidRun s1 rest
      | .error _ => True


/-! ## Counting registrations and deregistrations over a run -/

/-- The number of register requests in a sequence of received requests. -/
def registered : List (List ClientPtr × Request) → Nat
  | [] => 0
  | (_, .clientAdd _) :: rest => registered rest + 1
  | _ :: rest => registered rest

/-- The number of register requests of the run from `s` that added a pointer
which was not in the active set when the request was received. -/
def additions (s : State) : List (List ClientPtr × Request) → Nat
  | [] => 0
  | (order, r) :: rest =>
    (match r with
      | .clientAdd c => if c ∈ s.clients then 0 else 1
      | _ => 0) +
    (match loopIter s order r with
      | .ok s1 => additions s1 rest
      | .error _ => 0)

/-- The number of deregister requests of the run from `s` that removed a
pointer which was in the active set when the request was received. -/
def removals (s : State) : List (List ClientPtr × Request) → Nat
  | [] => 0
  | (order, r) :: rest =>
    (match r with
      | .clientDel c => if c ∈ s.clients then 1 else 0
      | _ => 0) +
    (match loopIter s order r with
      | .ok s1 => removals s1 rest
      | .error _ => 0)

/-- A request whose pointer, if it carries one, is not nil. -/
def Request.nonNil : Request → Bool
  | .clientAdd none => false
  | .clientDel none => false
  | _ => true

/-- The pointers of the register requests in a sequence, in order. -/
def registeredPtrs : List (List ClientPtr × Request) → List ClientPtr
  | [] => []
  | (_, .clientAdd c) :: rest => c :: registeredPtrs rest
  | _ :: rest => registeredPtrs rest

/-- No register request of the run from `s` is received for a pointer that is
in the active set at that time: a session is registered only when it is new
or has been deregistered since, as `sse` does by registering each client it
allocates once. -/
def NoDoubleRegister (s : State) : List (List ClientPtr × Request) → Prop
  | [] => True
  | (order, r) :: rest =>
    (match r with
      | .clientAdd c => c ∉ s.clients
      | _ => True) ∧
    (match loopIter s order r with
      | .ok s1 => NoDoubleRegister s1 rest
      | .error _ => True)

/-! ## Publish entry point -/

/-- The parts of an `*http.Request` a caller fills in: the address it calls
from, and the URL and body through which it can hand over content. -/
structure HttpRequest where
  RemoteAddr : GoString
  URL : GoString
  Body : GoString
deriving DecidableEq

/-- Go `func (h *hub) broadcast(w http.ResponseWriter, r *http.Request)`: the
value it sends on `h.broadcastReq`, `BroadcastRequest{"1", r.RemoteAddr}`. -/
def hub.broadcast (r : HttpRequest) : BroadcastRequest :=
  ⟨ascii "1", r.RemoteAddr⟩

/-! ## Subscribe handler -/

/-- What a call of `sse` does to the outside, in order. -/
inductive Effect where
  | httpError (msg : GoString) (code : Nat)
  | setHeader (key value : GoString)
  | send (r : Request)
  | write (msg : GoString) (ok : Bool)
  | flush
deriving DecidableEq

/-- A call of `sse` in progress: memory, the effects so far, whether the call
has returned, and (as an observation, not program state) the frames that
`client.Write` has accepted into the queue of its client. -/
structure Run where
  heap : Heap
  trace : List Effect
  accepted : List GoString
  returned : Bool

/-- What happens next to a session: the coordinator calls `client.Write(msg)`
on it, or the `select` of the delivery loop takes `<-r.Context().Done()`, or it
takes `msg := <-client.msg`, with `w.Write(msg)` succeeding or failing. -/
inductive Event where
  | enqueue (msg : GoString)
  | ctxDone
  | recv (writeOk : Bool)
deriving DecidableEq

/-- A receive from the channel of the client at `a`: the oldest frame and the
memory without it, or nothing when the buffer is empty (the case is not
ready). -/
def receive (heap : Heap) (a : Nat) : Option (GoString × Heap) :=
  match (heap a).msg.buf with
  | [] => none
  | msg :: rest =>
    some (msg, Function.update heap a { heap a with msg := { (heap a).msg with buf := rest } })

/-- The start of `sse` for a request from `remoteAddr`: without a flusher,
`http.Error(w, "no flusher", http.StatusBadRequest)` and return; otherwise the
three headers, the client allocated at the address `a` the allocator picks, and
the send on `h.clientAdd`, which completes when the loop receives it. -/
def sseInit (canFlush : Bool) (remoteAddr : GoString) (a : Nat) (heap : Heap) : Run :=
  if canFlush then
    { heap := Function.update heap a (newClient remoteAddr)
      trace := [.setHeader (ascii "Content-Type") (ascii "text/event-stream"),
        .setHeader (ascii "Cache-Control") (ascii "no-cache"),
        .setHeader (ascii "Access-Control-Allow-Origin") (ascii "*"),
        .send (.clientAdd (some a))]
      accepted := []
      returned := false }
  else
    { heap := heap
      trace := [.httpError (ascii "no flusher") 400]
      accepted := []
      returned := true }

/-- One event in the life of the session at `a`.  A `select` case that is not
ready (nothing buffered) and any case after the call has returned change
nothing.  Each `return` of the loop runs the deferred send on `h.clientDel`. -/
def sseStep (a : Nat) (st : Run) : Event → Run
  | .enqueue msg =>
    match client.Write st.heap (some a) msg with
    | (none, hp) => { st with heap := hp, accepted := st.accepted ++ [msg] }
    | (some _, hp) => { st with heap := hp }
  | .ctxDone =>
    if st.returned then st
    else { st with trace := st.trace ++ [.send (.clientDel (some a))], returned := true }
  | .recv writeOk =>
    if st.returned then st
    else
      match receive st.heap a with
      | none => st
      | some (msg, hp) =>
        if writeOk then
          { st with heap := hp, trace := st.trace ++ [.write msg true, .flush] }
        else
          { st with heap := hp
                    trace := st.trace ++ [.write msg false, .send (.clientDel (some a))]
                    returned := true }

/-- A call of `sse` together with the events that reach its session. -/
def sse (canFlush : Bool) (remoteAddr : GoString) (a : Nat) (heap : Heap)
    (events : List Event) : Run :=
  events.foldl (sseStep a) (sseInit canFlush remoteAddr a heap)

/-- The requests sent to the coordinator in a trace, in order. -/
def sends : List Effect → List Request
  | [] => []
  | .send r :: rest => r :: sends rest
  | _ :: rest => sends rest

/-- The frames handed to `w.Write` in a trace, in order. -/
def writes : List Effect → List GoString
  | [] => []
  | .write msg _ :: rest => msg :: writes rest
  | _ :: rest => writes rest

/-- The frames `w.Write` wrote without error in a trace, in order. -/
def written : List Effect → List GoString
  | [] => []
  | .write msg true :: rest => msg :: written rest
  | _ :: rest => written rest

/-- Whether each successful write of a trace is directly followed by a flush. -/
def followedByFlush : List Effect → Bool
  | [] => true
  | .write _ true :: rest =>
    (match rest with
      | .flush :: _ => true
      | _ => false) && followedByFlush rest
  | _ :: rest => followedByFlush rest

/-! ## Coordinator and delivery loops together -/

/-- A step of the whole system: one iteration of the coordinator loop, or the
delivery loop of the session at `a` receiving from its channel. -/
inductive SysStep where
  | coordinator (order : List ClientPtr) (r : Request)
  | delivery (a : Nat)
deriving DecidableEq

/-- One step of the system; a delivery with nothing buffered changes nothing. -/
def sysStep (s : State) : SysStep → Except Panic State
  | .coordinator order r => loopIter s order r
  | .delivery a =>
    match receive s.heap a with
    | none => .ok s
    | some (_, hp) => .ok { s with heap := hp }

/-- The system run over a finite sequence of steps; a panic ends the run. -/
def runSys (s : State) : List SysStep → Except Panic State
  | [] => .ok s
  | step :: rest =>
    match sysStep s step with
    | .ok s1 => runSys s1 rest
    | .error e => .error e

/-- What holds of a call of `sse` that is past the effects `pre` of its start:
the effects `rest` of its delivery loop hold the deregister request exactly
when the call has returned, and then last; the frames handed to `w.Write`
followed by the frames still buffered are the frames accepted into the queue;
a write fails only as the last one; every successful write is flushed. -/
def LoopInv (a : Nat) (pre : List Effect) (st : Run) : Prop :=
  ∃ rest, st.trace = pre ++ rest
    ∧ sends rest = (if st.returned then [.clientDel (some a)] else [])
    ∧ (st.returned = true → rest.getLast? = some (.send (.clientDel (some a))))
    ∧ writes rest ++ (st.heap a).msg.buf = st.accepted
    ∧ written rest <+: writes rest
    ∧ (st.returned = false → written rest = writes rest)
    ∧ followedByFlush rest = true

/-! ## Example states -/

/-- A memory in which every client is as `sse` creates it. -/
def exampleHeap : Heap := fun _ => newClient (ascii "10.0.0.7:5000")

/-- A memory in which the queue of the client at address 0 holds 8 frames. -/
def fullHeap : Heap := fun a =>
  if a = 0 then ⟨ascii "10.0.0.7:5000", ⟨8, List.replicate 8 (ascii "x")⟩⟩
  else newClient (ascii "10.0.0.7:5000")

/-! ## Lemmas on the frame encoder -/

theorem ascii_nl : ascii "\n" = [nl] := by decide

theorem foldl_append_eq_flatten (f : GoString → GoString) (lines : List GoString)
    (init : GoString) :
    lines.foldl (fun buf line => buf ++ f line) init = init ++ (lines.map f).flatten := by
  induction lines generalizing init with
  | nil => simp
  | cons l ls ih => simp [ih]

theorem Split_ne_nil (s : GoString) : Split s ≠ [] := by
  cases s with
  | nil => simp [Split]
  | cons b rest =>
    unfold Split
    split
    · simp
    · split <;> simp

theorem Split_no_nl (s : GoString) : ∀ seg ∈ Split s, nl ∉ seg := by
  induction s with
  | nil => simp [Split]
  | cons b rest ih =>
    unfold Split
    split
    · intro seg hseg
      rcases List.mem_cons.1 hseg with h | h
      · simp [h]
      · exact ih seg h
    · rename_i hb
      split
      · intro seg hseg
        simp at hseg
        subst hseg
        simpa using Ne.symm hb
      · rename_i seg0 segs heq
        intro seg hseg
        rw [heq] at ih
        rcases List.mem_cons.1 hseg with h | h
        · subst h
          have := ih seg0 (by simp)
          simp only [List.mem_cons, not_or]
          exact ⟨Ne.symm hb, this⟩
        · exact ih seg (by simp [h])

theorem Split_intercalate (s : GoString) : [nl].intercalate (Split s) = s := by
  induction s with
  | nil => decide
  | cons b rest ih =>
    unfold Split
    split
    · rename_i hb
      subst hb
      rcases hsp : Split rest with _ | ⟨seg, segs⟩
      · exact absurd hsp (Split_ne_nil rest)
      · rw [hsp] at ih
        rw [← ih]
        simp [List.intercalate, List.intersperse]
    · split
      · rename_i heq
        exact absurd heq (Split_ne_nil rest)
      · rename_i seg0 segs heq
        rw [heq] at ih
        rw [← ih]
        cases segs <;> simp [List.intercalate, List.intersperse]

theorem Split_length (s : GoString) : (Split s).length = s.count nl + 1 := by
  induction s with
  | nil => simp [Split]
  | cons b rest ih =>
    unfold Split
    split
    · rename_i hb
      subst hb
      simp [ih]
    · rename_i hb
      split
      · rename_i heq
        exact absurd heq (Split_ne_nil rest)
      · rename_i seg0 segs heq
        rw [heq] at ih
        rw [List.count_cons_of_ne (Ne.symm hb)]
        simpa using ih

/-- The frame as one expression: the event line, the data lines, a line break. -/
theorem Bytes_eq (r : BroadcastRequest) :
    r.Bytes = ascii "event: " ++ r.Event ++ [nl] ++
      ((Split r.Data).map (fun seg => ascii "data: " ++ seg ++ [nl])).flatten ++ [nl] := by
  simp only [BroadcastRequest.Bytes, ascii_nl]
  rw [foldl_append_eq_flatten (fun seg => ascii "data: " ++ seg ++ [nl])]

/-- A text of non-empty lines without line breaks, each ended by a line break,
followed by one more line break, holds two adjacent line breaks only at its
end. -/
theorem blank_line_only_last (lines : List GoString)
    (hl : ∀ l ∈ lines, l ≠ [] ∧ nl ∉ l) (a b : GoString)
    (h : (lines.map (fun l => l ++ [nl])).flatten ++ [nl] = a ++ nl :: nl :: b) :
    b = [] := by
  induction lines generalizing a with
  | nil =>
    have := congrArg List.length h
    simp at this
    omega
  | cons l ls ih =>
    have hl0 := hl l (by simp)
    have hls : ∀ l ∈ ls, l ≠ [] ∧ nl ∉ l := fun x hx => hl x (by simp [hx])
    -- the text after the first line and its line break
    have key : ∀ a1 : GoString,
        nl :: ((ls.map (fun l => l ++ [nl])).flatten ++ [nl]) = a1 ++ nl :: nl :: b →
        b = [] := by
      intro a1 h1
      cases a1 with
      | nil =>
        simp only [List.nil_append, List.cons.injEq, true_and] at h1
        cases ls with
        | nil => simpa using h1.symm
        | cons l2 ls2 =>
          have hl2 := hl l2 (by simp)
          cases l2 with
          | nil => exact absurd rfl hl2.1
          | cons x xs =>
            simp only [List.map_cons, List.flatten_cons, List.cons_append,
              List.cons.injEq] at h1
            exact absurd (by simp [h1.1]) hl2.2
      | cons x a2 =>
        simp only [List.cons_append, List.cons.injEq] at h1
        exact ih hls a2 h1.2
    simp only [List.map_cons, List.flatten_cons, List.append_assoc, List.singleton_append] at h
    rcases List.append_eq_append_iff.1 h with ⟨a1, ha, h1⟩ | ⟨c1, hc, h1⟩
    · exact key a1 h1
    · cases c1 with
      | nil =>
        simp only [List.nil_append] at h1
        refine key [] ?_
        simpa using h1.symm
      | cons x c2 =>
        simp only [List.cons_append, List.cons.injEq] at h1
        exact absurd (by rw [hc, ← h1.1]; simp) hl0.2

theorem Bytes_eq_lines (event data : GoString) :
    (BroadcastRequest.mk event data).Bytes =
      ((frameLines event data).map (fun l => l ++ [nl])).flatten ++ [nl] := by
  rw [Bytes_eq]
  simp [frameLines, List.map_map, Function.comp_def]

theorem frameLines_spec (event data : GoString) (h : nl ∉ event) :
    ∀ l ∈ frameLines event data,
      (l ≠ [] ∧ nl ∉ l) ∧ (ascii "event: " <+: l ∨ ascii "data: " <+: l) := by
  have he : nl ∉ ascii "event: " := by decide
  have hd : nl ∉ ascii "data: " := by decide
  intro l hl
  simp only [frameLines, List.mem_cons, List.mem_map] at hl
  rcases hl with rfl | ⟨seg, hseg, rfl⟩
  · refine ⟨⟨?_, ?_⟩, Or.inl (List.prefix_append _ _)⟩
    · simp [ascii]
    · simp [he, h]
  · refine ⟨⟨?_, ?_⟩, Or.inr (List.prefix_append _ _)⟩
    · simp [ascii]
    · simp [hd, Split_no_nl data seg hseg]

/-- Claim C1. For every event and data, `Bytes()` is `"event: " ++ event ++ "\n"`,
then `"data: " ++ seg ++ "\n"` for each piece `seg` of the data split on `"\n"`
in order, then one `"\n"`.  The pieces are those of the split: joined with `"\n"`
they give the data back, none contains `"\n"`, and there is one more piece than
there are `"\n"` in the data (empty pieces are kept).  `Bytes` of `("ping", "a\nb")`
is `"event: ping\ndata: a\ndata: b\n\n"`. -/
theorem C1_Bytes_layout (event data : GoString) :
    (BroadcastRequest.mk event data).Bytes =
        ascii "event: " ++ event ++ ascii "\n" ++
          ((Split data).map (fun seg => ascii "data: " ++ seg ++ ascii "\n")).flatten ++
          ascii "\n"
      ∧ (ascii "\n").intercalate (Split data) = data
      ∧ nl ∉ (Split data).flatten
      ∧ (Split data).length = data.count nl + 1
      ∧ (BroadcastRequest.mk (ascii "ping") (ascii "a\nb")).Bytes =
          ascii "event: ping\ndata: a\ndata: b\n\n" := by
  refine ⟨?_, ?_, ?_, Split_length data, by decide⟩
  · rw [Bytes_eq, ascii_nl]
  · rw [ascii_nl]; exact Split_intercalate data
  · simp only [List.mem_flatten, not_exists, not_and]
    exact fun seg hseg => Split_no_nl data seg hseg

/-- Claim C9. For every event, `Bytes()` of a request with empty data is
`"event: " ++ event ++ "\ndata: \n\n"`: one data line with an empty payload and
the closing blank line. -/
theorem C9_Bytes_empty_data (event : GoString) :
    (BroadcastRequest.mk event (ascii "")).Bytes =
      ascii "event: " ++ event ++ ascii "\ndata: \n\n" := by
  have h1 : ascii "" = [] := by decide
  have h2 : ascii "\ndata: \n\n" = [nl] ++ (ascii "data: " ++ [] ++ [nl]) ++ [nl] := by decide
  rw [Bytes_eq, h1, h2]
  simp [Split]

/-- Claim C10. For every event without `"\n"` and every data, the frame ends with
`"\n\n"`, `"\n\n"` occurs nowhere else in it, and what precedes the last `"\n"` is
a sequence of lines, each ended by `"\n"`, containing no `"\n"` and starting with
`"event: "` or `"data: "` (so none of them is blank). -/
theorem C10_one_blank_line_last (event data : GoString) (h : nl ∉ event) :
    [nl, nl] <:+ (BroadcastRequest.mk event data).Bytes
      ∧ (∀ a b, (BroadcastRequest.mk event data).Bytes = a ++ [nl, nl] ++ b → b = [])
      ∧ ∃ lines : List GoString,
          (BroadcastRequest.mk event data).Bytes =
            (lines.map (fun l => l ++ [nl])).flatten ++ [nl]
          ∧ ∀ l ∈ lines, nl ∉ l ∧ (ascii "event: " <+: l ∨ ascii "data: " <+: l) := by
  have hspec := frameLines_spec event data h
  refine ⟨?_, ?_, frameLines event data, Bytes_eq_lines event data,
    fun l hl => ⟨(hspec l hl).1.2, (hspec l hl).2⟩⟩
  · rw [Bytes_eq_lines]
    have hne : frameLines event data ≠ [] := by simp [frameLines]
    rw [← List.dropLast_append_getLast hne]
    refine ⟨(((frameLines event data).dropLast).map (fun l => l ++ [nl])).flatten ++
      (frameLines event data).getLast hne, ?_⟩
    simp
  · intro a b hab
    rw [Bytes_eq_lines] at hab
    exact blank_line_only_last (frameLines event data) (fun l hl => (hspec l hl).1) a b
      (by simpa using hab)

/-- Witness of C10 at event `ping` and data `a\n\nb`. -/
theorem C10_one_blank_line_last_witness :
    nl ∉ ascii "ping" ∧
      [nl, nl] <:+ (BroadcastRequest.mk (ascii "ping") (ascii "a\n\nb")).Bytes :=
  ⟨by decide, (C10_one_blank_line_last (ascii "ping") (ascii "a\n\nb") (by decide)).1⟩

/-! ## Lemmas on `Write` and the fan-out -/

theorem Write_other (heap : Heap) (c : ClientPtr) (msg : GoString) (b : Nat)
    (h : c ≠ some b) : (client.Write heap c msg).2 b = heap b := by
  cases c with
  | none => rfl
  | some a =>
    have hne : b ≠ a := fun e => h (by rw [e])
    simp only [client.Write]
    split
    · simp [Function.update, hne]
    · rfl

theorem Write_local (heap heap2 : Heap) (a : Nat) (msg : GoString) (h : heap a = heap2 a) :
    (client.Write heap (some a) msg).2 a = (client.Write heap2 (some a) msg).2 a := by
  simp only [client.Write, h]
  split <;> simp [h]

theorem Write_room (heap : Heap) (a : Nat) (msg : GoString)
    (h : (heap a).msg.buf.length < (heap a).msg.cap) :
    (client.Write heap (some a) msg).2 a =
      { heap a with msg := { (heap a).msg with buf := (heap a).msg.buf ++ [msg] } } := by
  simp [client.Write, h]

theorem Write_full (heap : Heap) (a : Nat) (msg : GoString)
    (h : (heap a).msg.cap ≤ (heap a).msg.buf.length) :
    (client.Write heap (some a) msg).2 = heap := by
  simp [client.Write, Nat.not_lt.2 h]

theorem fanOut_cons (msg : GoString) (c : ClientPtr) (cs : List ClientPtr) (heap : Heap) :
    fanOut msg (c :: cs) heap = fanOut msg cs (client.Write heap c msg).2 := rfl

/-- A client the range does not visit is left as it was. -/
theorem fanOut_not_mem (msg : GoString) (order : List ClientPtr) (heap : Heap) (b : Nat)
    (h : some b ∉ order) : fanOut msg order heap b = heap b := by
  induction order generalizing heap with
  | nil => rfl
  | cons c cs ih =>
    rw [fanOut_cons, ih _ (fun hm => h (List.mem_cons_of_mem _ hm))]
    exact Write_other heap c msg b (fun e => h (by simp [e]))

/-- A client the range visits once is written to once. -/
theorem fanOut_mem (msg : GoString) (order : List ClientPtr) (heap : Heap) (b : Nat)
    (hnd : order.Nodup) (h : some b ∈ order) :
    fanOut msg order heap b = (client.Write heap (some b) msg).2 b := by
  induction order generalizing heap with
  | nil => simp at h
  | cons c cs ih =>
    rw [fanOut_cons]
    have hnd2 := List.nodup_cons.1 hnd
    by_cases hc : c = some b
    · subst hc
      exact fanOut_not_mem msg cs _ b hnd2.1
    · have hb : some b ∈ cs := by
        rcases List.mem_cons.1 h with e | e
        · exact absurd e.symm hc
        · exact e
      rw [ih _ hnd2.2 hb]
      exact Write_local _ _ b msg (Write_other heap c msg b hc)

theorem loopIter_broadcast (s : State) (order : List ClientPtr) (br : BroadcastRequest) :
    loopIter s order (.broadcastReq br) =
      .ok { s with heap := fanOut br.Bytes order s.heap } := rfl

theorem loopIter_add (s : State) (order : List ClientPtr) (a : Nat) :
    loopIter s order (.clientAdd (some a)) =
      .ok { s with clients := insert (some a) s.clients } := rfl

theorem loopIter_del (s : State) (order : List ClientPtr) (a : Nat) :
    loopIter s order (.clientDel (some a)) =
      .ok { s with clients := s.clients.erase (some a) } := rfl

/-! ## The broadcast branch -/

/-- Claim C2. For every state, broadcast request and enumeration order of the
active set, the iteration completes, and every session of the active set whose
queue had room has exactly the frame `Bytes()` appended at the tail of its
queue.  When every active session has the empty queue of capacity 8 that `sse`
gives it, every active session's queue afterwards holds that one frame. -/
theorem C2_broadcast_enqueues_once (s : State) (br : BroadcastRequest)
    (order : List ClientPtr) (horder : IsRange order s.clients) :
    ∃ s1, loopIter s order (.broadcastReq br) = .ok s1
      ∧ (∀ a, some a ∈ s.clients → (s.heap a).msg.buf.length < (s.heap a).msg.cap →
          (s1.heap a).msg.buf = (s.heap a).msg.buf ++ [br.Bytes])
      ∧ ((∀ a, some a ∈ s.clients → (s.heap a).msg = Chan.make 8) →
          ∀ a, some a ∈ s.clients → (s1.heap a).msg.buf = [br.Bytes]) := by
  refine ⟨_, loopIter_broadcast s order br, ?_, ?_⟩
  · intro a ha hroom
    show (fanOut br.Bytes order s.heap a).msg.buf = _
    rw [fanOut_mem _ _ _ _ horder.1 ((horder.2 _).2 ha), Write_room _ _ _ hroom]
  · intro hall a ha
    have hm := hall a ha
    have hroom : (s.heap a).msg.buf.length < (s.heap a).msg.cap := by
      rw [hm]; decide
    show (fanOut br.Bytes order s.heap a).msg.buf = _
    rw [fanOut_mem _ _ _ _ horder.1 ((horder.2 _).2 ha), Write_room _ _ _ hroom, hm]
    rfl

/-- Witness of C2: two active sessions with empty queues of capacity 8 both
hold the one frame after a broadcast. -/
theorem C2_broadcast_enqueues_once_witness :
    IsRange [some 1, some 0] ({some 0, some 1} : Finset ClientPtr)
      ∧ ∃ s1, loopIter ⟨{some 0, some 1}, exampleHeap⟩ [some 1, some 0]
          (.broadcastReq ⟨ascii "ping", ascii "a\nb"⟩) = .ok s1
        ∧ (s1.heap 0).msg.buf = [ascii "event: ping\ndata: a\ndata: b\n\n"]
        ∧ (s1.heap 1).msg.buf = [ascii "event: ping\ndata: a\ndata: b\n\n"] := by
  have hr : IsRange [some 1, some 0] ({some 0, some 1} : Finset ClientPtr) := by
    refine ⟨by decide, fun c => ?_⟩
    simp only [List.mem_cons, List.mem_singleton, List.not_mem_nil, or_false,
      Finset.mem_insert, Finset.mem_singleton]
    exact Or.comm
  obtain ⟨s1, h1, _, h3⟩ := C2_broadcast_enqueues_once ⟨{some 0, some 1}, exampleHeap⟩
    ⟨ascii "ping", ascii "a\nb"⟩ [some 1, some 0] hr
  have hb : (BroadcastRequest.mk (ascii "ping") (ascii "a\nb")).Bytes =
      ascii "event: ping\ndata: a\ndata: b\n\n" := by decide
  refine ⟨hr, s1, h1, ?_, ?_⟩
  · rw [← hb]; exact h3 (fun _ _ => rfl) 0 (by simp)
  · rw [← hb]; exact h3 (fun _ _ => rfl) 1 (by simp)

/-- Claim C3. For every state with an active session whose queue is at capacity,
a broadcast leaves that session as it was; every other active session whose
queue has room gets the frame at the tail of its queue; and every other client
ends exactly as after the same broadcast from the state without the full
session in the active set. -/
theorem C3_full_queue_drops (s : State) (br : BroadcastRequest) (order : List ClientPtr)
    (horder : IsRange order s.clients) (a : Nat) (ha : some a ∈ s.clients)
    (hfull : (s.heap a).msg.cap ≤ (s.heap a).msg.buf.length) :
    ∃ s1, loopIter s order (.broadcastReq br) = .ok s1
      ∧ s1.heap a = s.heap a
      ∧ (∀ b, b ≠ a → some b ∈ s.clients →
          (s.heap b).msg.buf.length < (s.heap b).msg.cap →
          (s1.heap b).msg.buf = (s.heap b).msg.buf ++ [br.Bytes])
      ∧ (∀ order2, IsRange order2 (s.clients.erase (some a)) →
          ∃ s2, loopIter { s with clients := s.clients.erase (some a) } order2
                  (.broadcastReq br) = .ok s2
            ∧ ∀ b, b ≠ a → s1.heap b = s2.heap b) := by
  refine ⟨_, loopIter_broadcast s order br, ?_, ?_, ?_⟩
  · show fanOut br.Bytes order s.heap a = _
    rw [fanOut_mem _ _ _ _ horder.1 ((horder.2 _).2 ha), Write_full _ _ _ hfull]
  · intro b _ hb hroom
    show (fanOut br.Bytes order s.heap b).msg.buf = _
    rw [fanOut_mem _ _ _ _ horder.1 ((horder.2 _).2 hb), Write_room _ _ _ hroom]
  · intro order2 horder2
    refine ⟨_, loopIter_broadcast _ order2 br, ?_⟩
    intro b hba
    show fanOut br.Bytes order s.heap b = fanOut br.Bytes order2 s.heap b
    by_cases hb : some b ∈ s.clients
    · have hb2 : some b ∈ order2 :=
        (horder2.2 _).2 (Finset.mem_erase.2 ⟨fun e => hba (Option.some.inj e), hb⟩)
      rw [fanOut_mem _ _ _ _ horder.1 ((horder.2 _).2 hb),
        fanOut_mem _ _ _ _ horder2.1 hb2]
    · have hb1 : some b ∉ order := fun hm => hb ((horder.2 _).1 hm)
      have hb2 : some b ∉ order2 := fun hm =>
        hb (Finset.mem_of_mem_erase ((horder2.2 _).1 hm))
      rw [fanOut_not_mem _ _ _ _ hb1, fanOut_not_mem _ _ _ _ hb2]

/-- Witness of C3: session 0 holds 8 frames, session 1 none; after a broadcast
session 0 is as before. -/
theorem C3_full_queue_drops_witness :
    IsRange [some 0, some 1] ({some 0, some 1} : Finset ClientPtr)
      ∧ (fullHeap 0).msg.cap ≤ (fullHeap 0).msg.buf.length
      ∧ ∃ s1, loopIter ⟨{some 0, some 1}, fullHeap⟩ [some 0, some 1]
          (.broadcastReq ⟨ascii "ping", ascii "a\nb"⟩) = .ok s1
        ∧ s1.heap 0 = fullHeap 0 := by
  have hr : IsRange [some 0, some 1] ({some 0, some 1} : Finset ClientPtr) := by
    refine ⟨by decide, fun c => ?_⟩
    simp
  have hfull : (fullHeap 0).msg.cap ≤ (fullHeap 0).msg.buf.length := by decide
  obtain ⟨s1, h1, h2, _⟩ := C3_full_queue_drops ⟨{some 0, some 1}, fullHeap⟩
    ⟨ascii "ping", ascii "a\nb"⟩ [some 0, some 1] hr 0 (by simp) hfull
  exact ⟨hr, hfull, s1, h1, h2⟩

/-- Claim C7. For every session and frame, `Write` returns the nil error exactly
when the queue holds fewer frames than its capacity, which is 8 for the
sessions `sse` creates; then the queue is the old one with the frame at the
tail and nothing else changes; otherwise the error is `client <name> full` and
memory is unchanged.  `Write` is a total function: it returns in either case. -/
theorem C7_Write_nonblocking (heap : Heap) (a : Nat) (msg : GoString) :
    ((client.Write heap (some a) msg).1 = none ↔
        (heap a).msg.buf.length < (heap a).msg.cap)
      ∧ ((heap a).msg.buf.length < (heap a).msg.cap →
          (client.Write heap (some a) msg).2 = Function.update heap a
            { heap a with msg := { (heap a).msg with buf := (heap a).msg.buf ++ [msg] } })
      ∧ (¬ (heap a).msg.buf.length < (heap a).msg.cap →
          client.Write heap (some a) msg =
            (some (ascii "client " ++ (heap a).name ++ ascii " full"), heap))
      ∧ (∀ addr, (newClient addr).msg.cap = 8 ∧ (newClient addr).msg.buf = []) := by
  refine ⟨?_, ?_, ?_, fun _ => ⟨rfl, rfl⟩⟩
  · simp only [client.Write]
    split <;> simp [*]
  · intro h
    simp [client.Write, h]
  · intro h
    simp [client.Write, h]

/-! ## Register and deregister -/

theorem runLoop_cons_ok (s s1 : State) (order : List ClientPtr) (r : Request)
    (rest : List (List ClientPtr × Request)) (h : loopIter s order r = .ok s1) :
    runLoop s ((order, r) :: rest) = runLoop s1 rest := by
  simp [runLoop, h]

theorem loopIter_ok_of_nonNil (s : State) (order : List ClientPtr) (r : Request)
    (h : r.nonNil = true) : ∃ s1, loopIter s order r = .ok s1 := by
  cases r with
  | clientAdd c =>
    cases c with
    | none => simp [Request.nonNil] at h
    | some a => exact ⟨_, rfl⟩
  | clientDel c =>
    cases c with
    | none => simp [Request.nonNil] at h
    | some a => exact ⟨_, rfl⟩
  | broadcastReq br => exact ⟨_, rfl⟩

/-- A run in which no request carries the nil pointer does not panic. -/
theorem runLoop_ok_of_nonNil (s : State) (evs : List (List ClientPtr × Request))
    (h : ∀ e ∈ evs, e.2.nonNil = true) : ∃ s2, runLoop s evs = .ok s2 := by
  induction evs generalizing s with
  | nil => exact ⟨s, rfl⟩
  | cons e rest ih =>
    obtain ⟨order, r⟩ := e
    obtain ⟨s1, h1⟩ := loopIter_ok_of_nonNil s order r (h (order, r) (by simp))
    rw [runLoop_cons_ok s s1 order r rest h1]
    exact ih s1 (fun e he => h e (by simp [he]))

/-- The balance of a run: what the active set holds at the end and what was
removed is what it held at the start and what was added. -/
theorem runLoop_count (s s2 : State) (evs : List (List ClientPtr × Request))
    (hrun : runLoop s evs = .ok s2) :
    s2.clients.card + removals s evs = s.clients.card + additions s evs := by
  induction evs generalizing s with
  | nil =>
    simp only [runLoop, Except.ok.injEq] at hrun
    subst hrun
    rfl
  | cons e rest ih =>
    obtain ⟨order, r⟩ := e
    cases r with
    | clientAdd c =>
      cases c with
      | none => simp [runLoop, loopIter] at hrun
      | some a =>
        rw [runLoop_cons_ok _ _ _ _ _ (loopIter_add s order a)] at hrun
        have hc := ih { s with clients := insert (some a) s.clients } hrun
        simp only [removals, additions, loopIter_add]
        by_cases hm : some a ∈ s.clients
        · simp only [hm, if_true]
          simp only [Finset.insert_eq_of_mem hm] at hc ⊢
          omega
        · simp only [hm, if_false]
          have hcard := Finset.card_insert_of_not_mem hm
          simp only [hcard] at hc
          omega
    | clientDel c =>
      cases c with
      | none => simp [runLoop, loopIter] at hrun
      | some a =>
        rw [runLoop_cons_ok _ _ _ _ _ (loopIter_del s order a)] at hrun
        have hc := ih { s with clients := s.clients.erase (some a) } hrun
        simp only [removals, additions, loopIter_del]
        by_cases hm : some a ∈ s.clients
        · simp only [hm, if_true]
          have hcard := Finset.card_erase_of_mem hm
          have hpos := Finset.card_pos.2 ⟨_, hm⟩
          simp only [hcard] at hc
          omega
        · simp only [hm, if_false]
          simp only [Finset.erase_eq_of_not_mem hm] at hc ⊢
          omega
    | broadcastReq br =>
      rw [runLoop_cons_ok _ _ _ _ _ (loopIter_broadcast s order br)] at hrun
      have hc := ih { s with heap := fanOut br.Bytes order s.heap } hrun
      simp only [removals, additions, loopIter_broadcast]
      simp only [] at hc
      omega

/-- A session outside the active set that is not registered again stays outside
and is not written to, whatever the loop processes. -/
theorem runLoop_absent (a : Nat) (s s2 : State) (evs : List (List ClientPtr × Request))
    (hv : ValidRun s evs) (ha : some a ∉ s.clients)
    (hne : ∀ e ∈ evs, e.2 ≠ .clientAdd (some a)) (hrun : runLoop s evs = .ok s2) :
    some a ∉ s2.clients ∧ s2.heap a = s.heap a := by
  induction evs generalizing s with
  | nil =>
    simp only [runLoop, Except.ok.injEq] at hrun
    subst hrun
    exact ⟨ha, rfl⟩
  | cons e rest ih =>
    obtain ⟨order, r⟩ := e
    have hr := hne (order, r) (by simp)
    have hrest : ∀ e ∈ rest, e.2 ≠ .clientAdd (some a) := fun e he => hne e (by simp [he])
    obtain ⟨hrange, hv2⟩ := hv
    cases r with
    | clientAdd c =>
      cases c with
      | none => simp [runLoop, loopIter] at hrun
      | some b =>
        rw [runLoop_cons_ok _ _ _ _ _ (loopIter_add s order b)] at hrun
        have hv3 : ValidRun { s with clients := insert (some b) s.clients } rest := hv2
        have hba : some a ∉ insert (some b) s.clients := by
          simp only [Finset.mem_insert, not_or]
          exact ⟨fun e => hr (by rw [e]), ha⟩
        exact ih { s with clients := insert (some b) s.clients } hv3 hba hrest hrun
    | clientDel c =>
      cases c with
      | none => simp [runLoop, loopIter] at hrun
      | some b =>
        rw [runLoop_cons_ok _ _ _ _ _ (loopIter_del s order b)] at hrun
        have hv3 : ValidRun { s with clients := s.clients.erase (some b) } rest := hv2
        exact ih { s with clients := s.clients.erase (some b) } hv3
          (fun hm => ha (Finset.mem_of_mem_erase hm)) hrest hrun
    | broadcastReq br =>
      rw [runLoop_cons_ok _ _ _ _ _ (loopIter_broadcast s order br)] at hrun
      have hv3 : ValidRun { s with heap := fanOut br.Bytes order s.heap } rest := hv2
      obtain ⟨h1, h2⟩ := ih { s with heap := fanOut br.Bytes order s.heap } hv3 ha hrest hrun
      refine ⟨h1, ?_⟩
      rw [h2]
      exact fanOut_not_mem _ _ _ _ (fun hm => ha ((hrange.2 _).1 hm))

/-- Without double registration every register request adds a session. -/
theorem additions_eq_registered (s s2 : State) (evs : List (List ClientPtr × Request))
    (hrun : runLoop s evs = .ok s2) (hf : NoDoubleRegister s evs) :
    additions s evs = registered evs := by
  induction evs generalizing s with
  | nil => rfl
  | cons e rest ih =>
    obtain ⟨order, r⟩ := e
    obtain ⟨hhere, hnext⟩ := hf
    cases r with
    | clientAdd c =>
      cases c with
      | none => simp [runLoop, loopIter] at hrun
      | some a =>
        rw [runLoop_cons_ok _ _ _ _ _ (loopIter_add s order a)] at hrun
        have hn : NoDoubleRegister { s with clients := insert (some a) s.clients } rest := hnext
        have hm : some a ∉ s.clients := hhere
        have h := ih { s with clients := insert (some a) s.clients } hrun hn
        simp only [additions, registered, loopIter_add, hm, if_false, h]
        omega
    | clientDel c =>
      cases c with
      | none => simp [runLoop, loopIter] at hrun
      | some a =>
        rw [runLoop_cons_ok _ _ _ _ _ (loopIter_del s order a)] at hrun
        have hn : NoDoubleRegister { s with clients := s.clients.erase (some a) } rest := hnext
        have h := ih { s with clients := s.clients.erase (some a) } hrun hn
        simp only [additions, registered, loopIter_del, h]
        omega
    | broadcastReq br =>
      rw [runLoop_cons_ok _ _ _ _ _ (loopIter_broadcast s order br)] at hrun
      have hn : NoDoubleRegister { s with heap := fanOut br.Bytes order s.heap } rest := hnext
      have h := ih { s with heap := fanOut br.Bytes order s.heap } hrun hn
      simp only [additions, registered, loopIter_broadcast, h]
      omega

/-- Register requests for pairwise distinct pointers, none of them in the
active set, never register a session that is in the set. -/
theorem noDoubleRegister_of_nodup (s : State) (evs : List (List ClientPtr × Request))
    (hnd : (registeredPtrs evs).Nodup) (hs : ∀ c ∈ s.clients, c ∉ registeredPtrs evs) :
    NoDoubleRegister s evs := by
  induction evs generalizing s with
  | nil => trivial
  | cons e rest ih =>
    obtain ⟨order, r⟩ := e
    cases r with
    | clientAdd c =>
      simp only [registeredPtrs, List.nodup_cons] at hnd
      simp only [registeredPtrs, List.mem_cons, not_or] at hs
      refine ⟨fun hm => (hs c hm).1 rfl, ?_⟩
      cases c with
      | none => trivial
      | some a =>
        show NoDoubleRegister { s with clients := insert (some a) s.clients } rest
        refine ih _ hnd.2 ?_
        intro c hc
        rcases Finset.mem_insert.1 hc with rfl | hc2
        · exact hnd.1
        · exact (hs c hc2).2
    | clientDel c =>
      simp only [registeredPtrs] at hnd hs
      refine ⟨trivial, ?_⟩
      cases c with
      | none => trivial
      | some a =>
        show NoDoubleRegister { s with clients := s.clients.erase (some a) } rest
        exact ih _ hnd (fun c hc => hs c (Finset.mem_of_mem_erase hc))
    | broadcastReq br =>
      simp only [registeredPtrs] at hnd hs
      refine ⟨trivial, ?_⟩
      show NoDoubleRegister { s with heap := fanOut br.Bytes order s.heap } rest
      exact ih _ hnd hs

/-- Claim C4. For every finite sequence of requests that the loop processes
starting from the empty active set (register and deregister requests in
particular) in which no session is registered while it is in the active set,
the number of sessions in the active set is the number of register requests
processed minus the number of deregister requests that removed a session that
was in the set.  The loop processes every sequence in which no request carries
the nil pointer.  (By `noDoubleRegister_of_nodup` the condition holds whenever
the registered pointers are pairwise distinct, as those of `sse` are.) -/
theorem C4_active_count (heap : Heap) (evs : List (List ClientPtr × Request))
    (hfresh : NoDoubleRegister (newHub heap) evs) :
    (∀ s, runLoop (newHub heap) evs = .ok s →
        removals (newHub heap) evs ≤ registered evs
        ∧ s.clients.card = registered evs - removals (newHub heap) evs)
      ∧ ((∀ e ∈ evs, e.2.nonNil = true) → ∃ s, runLoop (newHub heap) evs = .ok s) := by
  refine ⟨?_, runLoop_ok_of_nonNil (newHub heap) evs⟩
  intro s hs
  have hc := runLoop_count (newHub heap) s evs hs
  have ha := additions_eq_registered (newHub heap) s evs hs hfresh
  have h0 : (newHub heap).clients.card = 0 := rfl
  omega

/-- Witness of C4: sessions 0 and 1 are registered, session 0 is deregistered
twice and then registered again: three register requests, one removal, two
sessions in the active set. -/
theorem C4_active_count_witness :
    NoDoubleRegister (newHub exampleHeap)
        [([], .clientAdd (some 0)), ([some 0], .clientAdd (some 1)),
          ([some 0, some 1], .clientDel (some 0)), ([some 1], .clientDel (some 0)),
          ([some 1], .clientAdd (some 0))]
      ∧ ∃ s, runLoop (newHub exampleHeap)
          [([], .clientAdd (some 0)), ([some 0], .clientAdd (some 1)),
            ([some 0, some 1], .clientDel (some 0)), ([some 1], .clientDel (some 0)),
            ([some 1], .clientAdd (some 0))] = .ok s
        ∧ s.clients.card = 3 - 1 := by
  have hf : NoDoubleRegister (newHub exampleHeap)
      [([], .clientAdd (some 0)), ([some 0], .clientAdd (some 1)),
        ([some 0, some 1], .clientDel (some 0)), ([some 1], .clientDel (some 0)),
        ([some 1], .clientAdd (some 0))] := by
    simp [NoDoubleRegister, loopIter, newHub]
  have h := (C4_active_count exampleHeap
    [([], .clientAdd (some 0)), ([some 0], .clientAdd (some 1)),
      ([some 0, some 1], .clientDel (some 0)), ([some 1], .clientDel (some 0)),
      ([some 1], .clientAdd (some 0))] hf).1
  exact ⟨hf, _, rfl, (h _ rfl).2⟩

/-- Claim C5. For every state and every session that is not in the active set,
the iteration that receives its deregister request completes and leaves the
state (the active set, its count and memory) as it was.  For every pointer,
two deregister requests in a row give the same result as one. -/
theorem C5_deregister_absent (s : State) (order : List ClientPtr) :
    (∀ a, some a ∉ s.clients →
        loopIter s order (.clientDel (some a)) = .ok s
        ∧ ∀ s1, loopIter s order (.clientDel (some a)) = .ok s1 →
            s1.clients = s.clients ∧ s1.clients.card = s.clients.card)
      ∧ (∀ c order2, runLoop s [(order, .clientDel c), (order2, .clientDel c)] =
          runLoop s [(order, .clientDel c)]) := by
  constructor
  · intro a ha
    have h : loopIter s order (.clientDel (some a)) = .ok s := by
      rw [loopIter_del, Finset.erase_eq_of_not_mem ha]
    refine ⟨h, ?_⟩
    intro s1 h1
    rw [h] at h1
    cases h1
    exact ⟨rfl, rfl⟩
  · intro c order2
    cases c with
    | none => rfl
    | some a =>
      simp only [runLoop, loopIter_del]
      congr 1
      simp

/-- Witness of C5: a deregister request for the session at address 3, which is
not in the active set of addresses 0 and 1. -/
theorem C5_deregister_absent_witness :
    some 3 ∉ ({some 0, some 1} : Finset ClientPtr)
      ∧ loopIter ⟨{some 0, some 1}, exampleHeap⟩ [] (.clientDel (some 3)) =
          .ok ⟨{some 0, some 1}, exampleHeap⟩ :=
  ⟨by decide,
    ((C5_deregister_absent ⟨{some 0, some 1}, exampleHeap⟩ []).1 3 (by decide)).1⟩

/-- Claim C6. For every state and session, the iteration that receives its
deregister request completes with the session outside the active set and
memory untouched; and after any further run of the loop that receives no
register request for that session, the session is still outside the active set
and its client, queue included, is exactly as it was at deregistration.  Such a
run does not panic when no request carries the nil pointer.  (A run is any
finite sequence of requests, so the statement holds after each iteration.) -/
theorem C6_deregistered_gets_nothing (s : State) (order : List ClientPtr) (a : Nat) :
    ∃ s1, loopIter s order (.clientDel (some a)) = .ok s1
      ∧ some a ∉ s1.clients
      ∧ s1.heap = s.heap
      ∧ (∀ evs, ValidRun s1 evs → (∀ e ∈ evs, e.2 ≠ .clientAdd (some a)) →
          ∀ s2, runLoop s1 evs = .ok s2 →
            some a ∉ s2.clients ∧ s2.heap a = s.heap a)
      ∧ (∀ evs, (∀ e ∈ evs, e.2.nonNil = true) → ∃ s2, runLoop s1 evs = .ok s2) := by
  refine ⟨_, loopIter_del s order a, ?_, rfl, ?_, ?_⟩
  · simp
  · intro evs hv hne s2 hrun
    exact runLoop_absent a { s with clients := s.clients.erase (some a) } s2 evs hv
      (by simp) hne hrun
  · intro evs hnn
    exact runLoop_ok_of_nonNil _ evs hnn

/-- Witness of C6: with the sessions at addresses 0 and 1 active, session 0 is
deregistered and a broadcast follows; the queue of session 0 stays empty. -/
theorem C6_deregistered_gets_nothing_witness :
    ∃ s2, runLoop ⟨{some 0, some 1}, exampleHeap⟩
        [([], .clientDel (some 0)),
          ([some 1], .broadcastReq ⟨ascii "1", ascii "10.0.0.9:4000"⟩)] = .ok s2
      ∧ some 0 ∉ s2.clients ∧ (s2.heap 0).msg.buf = [] := by
  obtain ⟨s1, h1, _, _, h4, _⟩ :=
    C6_deregistered_gets_nothing ⟨{some 0, some 1}, exampleHeap⟩ [] 0
  have hs1 : s1 = ⟨({some 0, some 1} : Finset ClientPtr).erase (some 0), exampleHeap⟩ := by
    rw [loopIter_del] at h1
    cases h1
    rfl
  subst hs1
  have hv : ValidRun ⟨({some 0, some 1} : Finset ClientPtr).erase (some 0), exampleHeap⟩
      [([some 1], .broadcastReq ⟨ascii "1", ascii "10.0.0.9:4000"⟩)] := by
    refine ⟨⟨by decide, ?_⟩, trivial⟩
    intro c
    simp only [List.mem_singleton, Finset.mem_erase, Finset.mem_insert, Finset.mem_singleton]
    constructor
    · rintro rfl
      simp
    · rintro ⟨h0, h | h⟩
      · exact absurd h h0
      · exact h
  refine ⟨_, rfl, ?_⟩
  have h := h4 _ hv (by decide) _ rfl
  exact ⟨h.1, by rw [h.2]; rfl⟩

/-- Claim C8. For every state and every two distinct sessions with the same name
that are not in the active set, registering both puts both in the set, which
grows by two; deregistering either one then leaves the other in the set; and
every later broadcast appends its frame to the queue of the one that remains,
when that queue has room. -/
theorem C8_same_name_independent (s : State) (a b : Nat) (o1 o2 o3 : List ClientPtr)
    (hab : a ≠ b) (hname : (s.heap a).name = (s.heap b).name)
    (ha : some a ∉ s.clients) (hb : some b ∉ s.clients) :
    ∃ s2, runLoop s [(o1, .clientAdd (some a)), (o2, .clientAdd (some b))] = .ok s2
      ∧ s2.clients.card = s.clients.card + 2
      ∧ some a ∈ s2.clients ∧ some b ∈ s2.clients
      ∧ ∀ gone kept, (gone = a ∧ kept = b) ∨ (gone = b ∧ kept = a) →
          ∃ s3, loopIter s2 o3 (.clientDel (some gone)) = .ok s3
            ∧ some gone ∉ s3.clients ∧ some kept ∈ s3.clients
            ∧ s3.clients.card = s.clients.card + 1
            ∧ ∀ br order, IsRange order s3.clients →
                (s3.heap kept).msg.buf.length < (s3.heap kept).msg.cap →
                ∃ s4, loopIter s3 order (.broadcastReq br) = .ok s4
                  ∧ (s4.heap kept).msg.buf = (s3.heap kept).msg.buf ++ [br.Bytes] := by
  have hne : some a ≠ some b := fun e => hab (Option.some.inj e)
  have ha2 : some a ∉ insert (some b) s.clients := by
    simp only [Finset.mem_insert, not_or]; exact ⟨hne, ha⟩
  have hb2 : some b ∉ insert (some a) s.clients := by
    simp only [Finset.mem_insert, not_or]; exact ⟨Ne.symm hne, hb⟩
  refine ⟨{ s with clients := insert (some b) (insert (some a) s.clients) }, rfl, ?_, ?_, ?_, ?_⟩
  · show (insert (some b) (insert (some a) s.clients)).card = _
    rw [Finset.card_insert_of_not_mem hb2, Finset.card_insert_of_not_mem ha]
  · show some a ∈ insert (some b) (insert (some a) s.clients)
    simp
  · show some b ∈ insert (some b) (insert (some a) s.clients)
    simp
  · intro gone kept hgk
    refine ⟨_, loopIter_del _ o3 gone, ?_, ?_, ?_, ?_⟩
    · simp
    · show some kept ∈ (insert (some b) (insert (some a) s.clients)).erase (some gone)
      rcases hgk with ⟨rfl, rfl⟩ | ⟨rfl, rfl⟩
      · simp [Ne.symm hab]
      · simp [hab]
    · show ((insert (some b) (insert (some a) s.clients)).erase (some gone)).card = _
      have hmem : some gone ∈ insert (some b) (insert (some a) s.clients) := by
        rcases hgk with ⟨rfl, rfl⟩ | ⟨rfl, rfl⟩ <;> simp
      rw [Finset.card_erase_of_mem hmem, Finset.card_insert_of_not_mem hb2,
        Finset.card_insert_of_not_mem ha]
      rfl
    · intro br order horder hroom
      have hkept : some kept ∈
          (insert (some b) (insert (some a) s.clients)).erase (some gone) := by
        rcases hgk with ⟨rfl, rfl⟩ | ⟨rfl, rfl⟩
        · simp [Ne.symm hab]
        · simp [hab]
      refine ⟨_, loopIter_broadcast _ order br, ?_⟩
      show (fanOut br.Bytes order s.heap kept).msg.buf = _
      rw [fanOut_mem _ _ _ _ horder.1 ((horder.2 _).2 hkept), Write_room _ _ _ hroom]

/-- Witness of C8: the sessions at addresses 0 and 1, both named
`10.0.0.7:5000`, registered from the empty active set. -/
theorem C8_same_name_independent_witness :
    (0 : Nat) ≠ 1 ∧ (exampleHeap 0).name = (exampleHeap 1).name
      ∧ ∃ s2, runLoop (newHub exampleHeap)
          [([], .clientAdd (some 0)), ([some 0], .clientAdd (some 1))] = .ok s2
        ∧ s2.clients.card = 2 := by
  obtain ⟨s2, h1, h2, _⟩ := C8_same_name_independent (newHub exampleHeap) 0 1
    [] [some 0] [some 0, some 1] (by decide) rfl (by simp [newHub]) (by simp [newHub])
  exact ⟨by decide, rfl, s2, h1, by simpa [newHub] using h2⟩

/-! ## The frame determines the request -/

theorem append_nl_inj (l m x y : GoString) (hl : nl ∉ l) (hm : nl ∉ m)
    (h : l ++ nl :: x = m ++ nl :: y) : l = m ∧ x = y := by
  induction l generalizing m with
  | nil =>
    cases m with
    | nil => simpa using h
    | cons b m2 =>
      simp only [List.nil_append, List.cons_append, List.cons.injEq] at h
      exact absurd (by simp [h.1]) hm
  | cons a l2 ih =>
    cases m with
    | nil =>
      simp only [List.nil_append, List.cons_append, List.cons.injEq] at h
      exact absurd (by simp [h.1]) hl
    | cons b m2 =>
      simp only [List.cons_append, List.cons.injEq] at h
      have hl2 : nl ∉ l2 := fun hx => hl (List.mem_cons_of_mem _ hx)
      have hm2 : nl ∉ m2 := fun hx => hm (List.mem_cons_of_mem _ hx)
      obtain ⟨h1, h2⟩ := ih m2 hl2 hm2 h.2
      exact ⟨by rw [h.1, h1], h2⟩

/-- Lines without line breaks are determined by the text they make up. -/
theorem lines_inj (ls ms : List GoString) (hl : ∀ l ∈ ls, nl ∉ l) (hm : ∀ m ∈ ms, nl ∉ m)
    (h : (ls.map (fun l => l ++ [nl])).flatten = (ms.map (fun l => l ++ [nl])).flatten) :
    ls = ms := by
  induction ls generalizing ms with
  | nil =>
    cases ms with
    | nil => rfl
    | cons m ms2 =>
      have := congrArg List.length h
      simp at this
      omega
  | cons l ls2 ih =>
    cases ms with
    | nil =>
      have := congrArg List.length h
      simp at this
    | cons m ms2 =>
      simp only [List.map_cons, List.flatten_cons, List.append_assoc,
        List.singleton_append] at h
      obtain ⟨h1, h2⟩ := append_nl_inj l m _ _ (hl l (by simp)) (hm m (by simp)) h
      rw [h1, ih ms2 (fun x hx => hl x (by simp [hx])) (fun x hx => hm x (by simp [hx])) h2]

/-- Claim C18. `Bytes()` is injective on requests whose event holds no `"\n"`:
two such requests with the same frame have the same event and the same data. -/
theorem C18_Bytes_injective (e1 e2 d1 d2 : GoString) (h1 : nl ∉ e1) (h2 : nl ∉ e2)
    (h : (BroadcastRequest.mk e1 d1).Bytes = (BroadcastRequest.mk e2 d2).Bytes) :
    e1 = e2 ∧ d1 = d2 := by
  rw [Bytes_eq_lines, Bytes_eq_lines] at h
  have hlines := lines_inj (frameLines e1 d1) (frameLines e2 d2)
    (fun l hl => (frameLines_spec e1 d1 h1 l hl).1.2)
    (fun l hl => (frameLines_spec e2 d2 h2 l hl).1.2)
    (List.append_cancel_right h)
  simp only [frameLines, List.cons.injEq] at hlines
  obtain ⟨he, hd⟩ := hlines
  have hsplit : Split d1 = Split d2 :=
    List.map_injective_iff.2 (fun x y hxy => List.append_cancel_left hxy) hd
  refine ⟨List.append_cancel_left he, ?_⟩
  rw [← Split_intercalate d1, ← Split_intercalate d2, hsplit]

/-- Witness of C18: the requests `ping` / `a\nb` and `ping` / `a\nb`. -/
theorem C18_Bytes_injective_witness :
    nl ∉ ascii "ping" ∧ ascii "ping" = ascii "ping" ∧ ascii "a\nb" = ascii "a\nb" :=
  ⟨by decide, C18_Bytes_injective (ascii "ping") (ascii "ping") (ascii "a\nb") (ascii "a\nb")
    (by decide) (by decide) rfl⟩

/-! ## Publish -/

/-- Claim C13 (as amended). For every publish call, the request `hub.broadcast`
submits has event `1` and the remote address of the HTTP request as data,
whatever else the request holds; two calls submit the same request exactly
when they come from the same remote address. -/
theorem C13_broadcast_submits_remote_addr (r : HttpRequest) :
    hub.broadcast r = ⟨ascii "1", r.RemoteAddr⟩
      ∧ ∀ r2 : HttpRequest, hub.broadcast r = hub.broadcast r2 ↔ r.RemoteAddr = r2.RemoteAddr := by
  refine ⟨rfl, fun r2 => ?_⟩
  simp [hub.broadcast]

/-- Counterexample to C13 as stated: two calls from one address, the first
with `event=ping&data=a` and the second with `event=pong&data=b` in URL and
body, submit the same request, with event `1` and the address as data. -/
theorem C13_counterexample :
    (HttpRequest.mk (ascii "10.0.0.7:5000") (ascii "/broadcast?event=ping&data=a")
        (ascii "event=ping&data=a")) ≠
      (HttpRequest.mk (ascii "10.0.0.7:5000") (ascii "/broadcast?event=pong&data=b")
        (ascii "event=pong&data=b"))
    ∧ hub.broadcast (HttpRequest.mk (ascii "10.0.0.7:5000")
          (ascii "/broadcast?event=ping&data=a") (ascii "event=ping&data=a")) =
        hub.broadcast (HttpRequest.mk (ascii "10.0.0.7:5000")
          (ascii "/broadcast?event=pong&data=b") (ascii "event=pong&data=b"))
    ∧ hub.broadcast (HttpRequest.mk (ascii "10.0.0.7:5000")
          (ascii "/broadcast?event=ping&data=a") (ascii "event=ping&data=a")) =
        ⟨ascii "1", ascii "10.0.0.7:5000"⟩ := by
  refine ⟨by decide, rfl, rfl⟩

/-! ## Nil handles -/

/-- Claim C14. `Write` on the nil session returns the error `nil client` for
every frame and leaves memory, hence every queue, as it was; a broadcast whose
range visits only the nil pointer leaves the whole state, active set included,
as it was. -/
theorem C14_Write_nil (s : State) (msg : GoString) :
    client.Write s.heap none msg = (some (ascii "nil client"), s.heap)
      ∧ (client.Write s.heap none msg).1 ≠ none
      ∧ (∀ a, ((client.Write s.heap none msg).2 a).msg.buf = (s.heap a).msg.buf)
      ∧ ∀ br, loopIter s [none] (.broadcastReq br) = .ok s := by
  refine ⟨rfl, ?_, fun _ => rfl, fun _ => rfl⟩
  simp [client.Write]

/-! ## Order of the range and frame of each branch -/

/-- Claim C19. For every state, every broadcast request and any two orders in
which the active set may be enumerated, the iteration gives the same state:
the same active set and the same queue for every client. -/
theorem C19_order_independent (s : State) (br : BroadcastRequest)
    (o1 o2 : List ClientPtr) (h1 : IsRange o1 s.clients) (h2 : IsRange o2 s.clients) :
    loopIter s o1 (.broadcastReq br) = loopIter s o2 (.broadcastReq br) := by
  rw [loopIter_broadcast, loopIter_broadcast]
  have hheap : fanOut br.Bytes o1 s.heap = fanOut br.Bytes o2 s.heap := by
    funext b
    by_cases hb : some b ∈ s.clients
    · rw [fanOut_mem _ _ _ _ h1.1 ((h1.2 _).2 hb), fanOut_mem _ _ _ _ h2.1 ((h2.2 _).2 hb)]
    · rw [fanOut_not_mem _ _ _ _ (fun hm => hb ((h1.2 _).1 hm)),
        fanOut_not_mem _ _ _ _ (fun hm => hb ((h2.2 _).1 hm))]
  rw [hheap]

/-- Witness of C19: the active set of addresses 0 and 1, enumerated as 0, 1
and as 1, 0. -/
theorem C19_order_independent_witness :
    loopIter ⟨{some 0, some 1}, exampleHeap⟩ [some 0, some 1]
        (.broadcastReq ⟨ascii "1", ascii "10.0.0.9:4000"⟩) =
      loopIter ⟨{some 0, some 1}, exampleHeap⟩ [some 1, some 0]
        (.broadcastReq ⟨ascii "1", ascii "10.0.0.9:4000"⟩) :=
  C19_order_independent ⟨{some 0, some 1}, exampleHeap⟩ ⟨ascii "1", ascii "10.0.0.9:4000"⟩
    [some 0, some 1] [some 1, some 0]
    ⟨by decide, fun c => by simp⟩
    ⟨by decide, fun c => by
      simp only [List.mem_cons, List.mem_singleton, List.not_mem_nil, or_false,
        Finset.mem_insert, Finset.mem_singleton]
      exact Or.comm⟩

/-- Claim C20. A broadcast iteration completes and leaves the active set as it
was, whatever the queues hold; a register or deregister iteration that
completes leaves memory, hence every queue, as it was, and it completes for
every session. -/
theorem C20_frame (s : State) (order : List ClientPtr) :
    (∀ br, ∃ s1, loopIter s order (.broadcastReq br) = .ok s1 ∧ s1.clients = s.clients)
      ∧ (∀ c s1, loopIter s order (.clientAdd c) = .ok s1 → s1.heap = s.heap)
      ∧ (∀ c s1, loopIter s order (.clientDel c) = .ok s1 → s1.heap = s.heap)
      ∧ (∀ a, ∃ s1 s2, loopIter s order (.clientAdd (some a)) = .ok s1
          ∧ loopIter s order (.clientDel (some a)) = .ok s2) := by
  refine ⟨fun br => ⟨_, rfl, rfl⟩, ?_, ?_, fun a => ⟨_, _, rfl, rfl⟩⟩
  · intro c s1 h
    cases c with
    | none => simp [loopIter] at h
    | some a =>
      rw [loopIter_add] at h
      cases h
      rfl
  · intro c s1 h
    cases c with
    | none => simp [loopIter] at h
    | some a =>
      rw [loopIter_del] at h
      cases h
      rfl

/-! ## The queue bound -/

theorem Write_bounded (heap : Heap) (c : ClientPtr) (msg : GoString) (a n : Nat)
    (h : (heap a).msg.cap = n ∧ (heap a).msg.buf.length ≤ n) :
    ((client.Write heap c msg).2 a).msg.cap = n
      ∧ ((client.Write heap c msg).2 a).msg.buf.length ≤ n := by
  cases c with
  | none => exact h
  | some b =>
    by_cases hab : a = b
    · subst hab
      by_cases hroom : (heap a).msg.buf.length < (heap a).msg.cap
      · rw [Write_room _ _ _ hroom]
        simp only [List.length_append, List.length_singleton]
        exact ⟨h.1, by omega⟩
      · rw [Write_full _ _ _ (Nat.not_lt.1 hroom)]
        exact h
    · rw [Write_other _ _ _ _ (fun e => hab (Option.some.inj e).symm)]
      exact h

theorem fanOut_bounded (msg : GoString) (order : List ClientPtr) (heap : Heap) (a n : Nat)
    (h : (heap a).msg.cap = n ∧ (heap a).msg.buf.length ≤ n) :
    (fanOut msg order heap a).msg.cap = n ∧ (fanOut msg order heap a).msg.buf.length ≤ n := by
  induction order generalizing heap with
  | nil => exact h
  | cons c cs ih =>
    rw [fanOut_cons]
    exact ih _ (Write_bounded heap c msg a n h)

theorem receive_bounded (heap hp : Heap) (b : Nat) (msg : GoString) (a n : Nat)
    (hr : receive heap b = some (msg, hp))
    (h : (heap a).msg.cap = n ∧ (heap a).msg.buf.length ≤ n) :
    (hp a).msg.cap = n ∧ (hp a).msg.buf.length ≤ n := by
  unfold receive at hr
  split at hr
  · cases hr
  · rename_i m rest hbuf
    simp only [Option.some.injEq, Prod.mk.injEq] at hr
    obtain ⟨_, rfl⟩ := hr
    by_cases hab : a = b
    · subst hab
      simp only [Function.update_same]
      rw [hbuf] at h
      simp only [List.length_cons] at h
      exact ⟨h.1, by omega⟩
    · simp only [Function.update_noteq hab]
      exact h

theorem sysStep_bounded (s s1 : State) (step : SysStep) (a n : Nat)
    (hs : sysStep s step = .ok s1)
    (h : (s.heap a).msg.cap = n ∧ (s.heap a).msg.buf.length ≤ n) :
    (s1.heap a).msg.cap = n ∧ (s1.heap a).msg.buf.length ≤ n := by
  cases step with
  | coordinator order r =>
    cases r with
    | clientAdd c =>
      cases c with
      | none => simp [sysStep, loopIter] at hs
      | some b =>
        simp only [sysStep, loopIter_add, Except.ok.injEq] at hs
        subst hs
        exact h
    | clientDel c =>
      cases c with
      | none => simp [sysStep, loopIter] at hs
      | some b =>
        simp only [sysStep, loopIter_del, Except.ok.injEq] at hs
        subst hs
        exact h
    | broadcastReq br =>
      simp only [sysStep, loopIter_broadcast, Except.ok.injEq] at hs
      subst hs
      exact fanOut_bounded _ _ _ _ _ h
  | delivery b =>
    simp only [sysStep] at hs
    split at hs
    · simp only [Except.ok.injEq] at hs
      subst hs
      exact h
    · rename_i m hp hrecv
      simp only [Except.ok.injEq] at hs
      subst hs
      exact receive_bounded _ _ _ _ _ _ hrecv h

theorem runSys_bounded (s s2 : State) (steps : List SysStep) (a n : Nat)
    (hs : runSys s steps = .ok s2)
    (h : (s.heap a).msg.cap = n ∧ (s.heap a).msg.buf.length ≤ n) :
    (s2.heap a).msg.cap = n ∧ (s2.heap a).msg.buf.length ≤ n := by
  induction steps generalizing s with
  | nil =>
    simp only [runSys, Except.ok.injEq] at hs
    subst hs
    exact h
  | cons step rest ih =>
    simp only [runSys] at hs
    split at hs
    · rename_i s1 h1
      exact ih s1 hs (sysStep_bounded s s1 step a n h1 h)
    · cases hs

theorem sse_snoc (canFlush : Bool) (remoteAddr : GoString) (a : Nat) (heap : Heap)
    (events : List Event) (e : Event) :
    sse canFlush remoteAddr a heap (events ++ [e]) =
      sseStep a (sse canFlush remoteAddr a heap events) e := by
  simp [sse, List.foldl_append]

theorem sseStep_bounded (a : Nat) (st : Run) (e : Event) (b n : Nat)
    (h : (st.heap b).msg.cap = n ∧ (st.heap b).msg.buf.length ≤ n) :
    ((sseStep a st e).heap b).msg.cap = n ∧ ((sseStep a st e).heap b).msg.buf.length ≤ n := by
  cases e with
  | enqueue msg =>
    have hw := Write_bounded st.heap (some a) msg b n h
    simp only [sseStep]
    split
    · rename_i hp heq
      rw [heq] at hw
      exact hw
    · rename_i x hp heq
      rw [heq] at hw
      exact hw
  | ctxDone =>
    simp only [sseStep]
    split <;> exact h
  | recv ok =>
    simp only [sseStep]
    split
    · exact h
    · split
      · exact h
      · rename_i m hp hrecv
        have hb := receive_bounded _ _ _ _ b n hrecv h
        split <;> exact hb

theorem sse_bounded (remoteAddr : GoString) (a : Nat) (heap : Heap) (events : List Event) :
    ((sse true remoteAddr a heap events).heap a).msg.cap = 8
      ∧ ((sse true remoteAddr a heap events).heap a).msg.buf.length ≤ 8 := by
  induction events using List.reverseRecOn with
  | nil => simp [sse, sseInit, newClient, Chan.make]
  | append_singleton evs e ih =>
    rw [sse_snoc]
    exact sseStep_bounded a _ e a 8 ih

/-- Claim C17. For every session whose queue has capacity 8 and holds at most
8 frames, as the queue of a session that `sse` has just created does, after
every sequence of register, deregister, broadcast and delivery steps the queue
still has capacity 8 and holds at most 8 frames; the same holds after every
sequence of enqueues and delivery-loop events of a call of `sse`. -/
theorem C17_queue_bounded (s : State) (a : Nat) (steps : List SysStep)
    (hcap : (s.heap a).msg.cap = 8) (hlen : (s.heap a).msg.buf.length ≤ 8) :
    (∀ s2, runSys s steps = .ok s2 →
        (s2.heap a).msg.cap = 8 ∧ (s2.heap a).msg.buf.length ≤ 8)
      ∧ (∀ remoteAddr heap, (sseInit true remoteAddr a heap).heap a = newClient remoteAddr
          ∧ (newClient remoteAddr).msg.cap = 8 ∧ (newClient remoteAddr).msg.buf.length ≤ 8)
      ∧ (∀ remoteAddr heap events,
          ((sse true remoteAddr a heap events).heap a).msg.buf.length ≤ 8) := by
  refine ⟨fun s2 hs => runSys_bounded s s2 steps a 8 hs ⟨hcap, hlen⟩, ?_, ?_⟩
  · intro remoteAddr heap
    refine ⟨by simp [sseInit], rfl, by simp [newClient, Chan.make]⟩
  · intro remoteAddr heap events
    exact (sse_bounded remoteAddr a heap events).2

/-- Witness of C17: session 0 starts with 8 frames buffered; after a broadcast
to it, a delivery and two more broadcasts it holds at most 8. -/
theorem C17_queue_bounded_witness :
    (fullHeap 0).msg.cap = 8 ∧ (fullHeap 0).msg.buf.length ≤ 8
      ∧ ∃ s2, runSys ⟨{some 0}, fullHeap⟩
          [.coordinator [some 0] (.broadcastReq ⟨ascii "1", ascii "a"⟩), .delivery 0,
            .coordinator [some 0] (.broadcastReq ⟨ascii "1", ascii "b"⟩),
            .coordinator [some 0] (.broadcastReq ⟨ascii "1", ascii "c"⟩)] = .ok s2
          ∧ (s2.heap 0).msg.cap = 8 ∧ (s2.heap 0).msg.buf.length ≤ 8 := by
  have h := (C17_queue_bounded ⟨{some 0}, fullHeap⟩ 0
    [.coordinator [some 0] (.broadcastReq ⟨ascii "1", ascii "a"⟩), .delivery 0,
      .coordinator [some 0] (.broadcastReq ⟨ascii "1", ascii "b"⟩),
      .coordinator [some 0] (.broadcastReq ⟨ascii "1", ascii "c"⟩)]
    (by decide) (by decide)).1
  exact ⟨by decide, by decide, _, rfl, h _ rfl⟩

/-! ## The subscribe handler -/

theorem sends_append (t u : List Effect) : sends (t ++ u) = sends t ++ sends u := by
  induction t with
  | nil => rfl
  | cons e t ih => cases e <;> simp [sends, ih]

theorem writes_append (t u : List Effect) : writes (t ++ u) = writes t ++ writes u := by
  induction t with
  | nil => rfl
  | cons e t ih => cases e <;> simp [writes, ih]

theorem written_append (t u : List Effect) : written (t ++ u) = written t ++ written u := by
  induction t with
  | nil => rfl
  | cons e t ih =>
    cases e with
    | write msg ok => cases ok <;> simp [written, ih]
    | httpError _ _ => simp [written, ih]
    | setHeader _ _ => simp [written, ih]
    | send _ => simp [written, ih]
    | flush => simp [written, ih]

theorem followedByFlush_tail (e : Effect) (t : List Effect)
    (h : followedByFlush (e :: t) = true) : followedByFlush t = true := by
  cases e with
  | write msg ok =>
    cases ok with
    | false => simpa [followedByFlush] using h
    | true =>
      simp only [followedByFlush, Bool.and_eq_true] at h
      exact h.2
  | httpError _ _ => simpa [followedByFlush] using h
  | setHeader _ _ => simpa [followedByFlush] using h
  | send _ => simpa [followedByFlush] using h
  | flush => simpa [followedByFlush] using h

theorem followedByFlush_append (t u : List Effect) (ht : followedByFlush t = true)
    (hu : followedByFlush u = true) : followedByFlush (t ++ u) = true := by
  induction t with
  | nil => exact hu
  | cons e t ih =>
    have ih2 := ih (followedByFlush_tail e t ht)
    cases e with
    | write msg ok =>
      cases ok with
      | false => simpa [followedByFlush] using ih2
      | true =>
        cases t with
        | nil => simp [followedByFlush] at ht
        | cons x t2 =>
          cases x <;> simp_all [followedByFlush]
    | httpError _ _ => simpa [followedByFlush] using ih2
    | setHeader _ _ => simpa [followedByFlush] using ih2
    | send _ => simpa [followedByFlush] using ih2
    | flush => simpa [followedByFlush] using ih2

/-- In a trace that passes `followedByFlush`, a flush stands right after each
successful write. -/
theorem followedByFlush_sound (t : List Effect) (h : followedByFlush t = true)
    (pre : List Effect) (msg : GoString) (post : List Effect)
    (ht : t = pre ++ .write msg true :: post) : ∃ post2, post = .flush :: post2 := by
  induction pre generalizing t with
  | nil =>
    subst ht
    cases post with
    | nil => simp [followedByFlush] at h
    | cons x post2 =>
      cases x <;> simp [followedByFlush] at h
      exact ⟨post2, rfl⟩
  | cons e pre2 ih =>
    subst ht
    exact ih _ (followedByFlush_tail e _ h) rfl

theorem LoopInv_init (remoteAddr : GoString) (a : Nat) (heap : Heap) :
    LoopInv a (sseInit true remoteAddr a heap).trace (sseInit true remoteAddr a heap) := by
  refine ⟨[], by simp, ?_, ?_, ?_, ?_, ?_, rfl⟩
  · simp [sseInit, sends]
  · simp [sseInit]
  · simp [sseInit, writes, newClient, Chan.make]
  · simp [written, writes]
  · intro _; rfl

theorem LoopInv_step (a : Nat) (pre : List Effect) (st : Run) (e : Event)
    (h : LoopInv a pre st) : LoopInv a pre (sseStep a st e) := by
  obtain ⟨rest, htr, hs, hlast, hw, hp, heq, hf⟩ := h
  cases e with
  | enqueue msg =>
    by_cases hroom : (st.heap a).msg.buf.length < (st.heap a).msg.cap
    · have hwr : client.Write st.heap (some a) msg =
          (none, Function.update st.heap a
            { st.heap a with msg := { (st.heap a).msg with buf := (st.heap a).msg.buf ++ [msg] } }) := by
        simp [client.Write, hroom]
      simp only [sseStep, hwr]
      refine ⟨rest, htr, hs, hlast, ?_, hp, heq, hf⟩
      simp only [Function.update_same]
      rw [← hw, List.append_assoc]
    · have hwr : client.Write st.heap (some a) msg =
          (some (ascii "client " ++ (st.heap a).name ++ ascii " full"), st.heap) := by
        simp [client.Write, hroom]
      simp only [sseStep, hwr]
      exact ⟨rest, htr, hs, hlast, hw, hp, heq, hf⟩
  | ctxDone =>
    by_cases hr : st.returned = true
    · simp only [sseStep, hr, if_true]
      exact ⟨rest, htr, hs, hlast, hw, hp, heq, hf⟩
    · have hr2 : st.returned = false := by simpa using hr
      simp only [sseStep, hr2, Bool.false_eq_true, if_false]
      refine ⟨rest ++ [.send (.clientDel (some a))], by simp [htr], ?_, ?_, ?_, ?_, ?_, ?_⟩
      · rw [sends_append, hs, hr2]
        simp [sends]
      · intro _; simp
      · rw [writes_append]
        simpa [writes] using hw
      · rw [writes_append, written_append]
        simpa [writes, written] using hp
      · intro hc; cases hc
      · exact followedByFlush_append _ _ hf rfl
  | recv ok =>
    by_cases hr : st.returned = true
    · simp only [sseStep, hr, if_true]
      exact ⟨rest, htr, hs, hlast, hw, hp, heq, hf⟩
    · have hr2 : st.returned = false := by simpa using hr
      cases hbuf : (st.heap a).msg.buf with
      | nil =>
        have hrecv : receive st.heap a = none := by simp [receive, hbuf]
        simp only [sseStep, hr2, Bool.false_eq_true, if_false, hrecv]
        exact ⟨rest, htr, hs, hlast, hw, hp, heq, hf⟩
      | cons m ms =>
        have hrecv : receive st.heap a = some (m, Function.update st.heap a
            { st.heap a with msg := { (st.heap a).msg with buf := ms } }) := by
          simp [receive, hbuf]
        rw [hbuf] at hw
        have hall := heq hr2
        cases ok with
        | true =>
          simp only [sseStep, hr2, Bool.false_eq_true, if_false, hrecv, if_true]
          refine ⟨rest ++ [.write m true, .flush], by simp [htr], ?_, ?_, ?_, ?_, ?_, ?_⟩
          · rw [sends_append, hs, hr2]
            simp [sends]
          · intro hc
            exact absurd hc (by simp)
          · rw [writes_append]
            simpa [writes, Function.update_same] using hw
          · rw [writes_append, written_append, hall]
            simp [writes, written]
          · intro _
            rw [writes_append, written_append, hall]
            simp [writes, written]
          · exact followedByFlush_append _ _ hf rfl
        | false =>
          simp only [sseStep, hr2, Bool.false_eq_true, if_false, hrecv]
          refine ⟨rest ++ [.write m false, .send (.clientDel (some a))], by simp [htr],
            ?_, ?_, ?_, ?_, ?_, ?_⟩
          · rw [sends_append, hs, hr2]
            simp [sends]
          · intro _; simp
          · rw [writes_append]
            simpa [writes, Function.update_same] using hw
          · rw [writes_append, written_append, hall]
            simp [writes, written]
          · intro hc; cases hc
          · exact followedByFlush_append _ _ hf rfl

theorem sse_inv (remoteAddr : GoString) (a : Nat) (heap : Heap) (events : List Event) :
    LoopInv a (sseInit true remoteAddr a heap).trace (sse true remoteAddr a heap events) := by
  induction events using List.reverseRecOn with
  | nil => exact LoopInv_init remoteAddr a heap
  | append_singleton evs e ih =>
    rw [sse_snoc]
    exact LoopInv_step a _ _ e ih

theorem sseStep_returned_mono (a : Nat) (st : Run) (e : Event) (h : st.returned = true) :
    (sseStep a st e).returned = true := by
  cases e with
  | enqueue msg =>
    simp only [sseStep]
    split <;> exact h
  | ctxDone => simp [sseStep, h]
  | recv ok => simp [sseStep, h]

theorem sseStep_ctxDone_returned (a : Nat) (st : Run) :
    (sseStep a st .ctxDone).returned = true := by
  by_cases h : st.returned = true
  · simp [sseStep, h]
  · simp [sseStep, h]

theorem sse_returned_of_ctxDone (canFlush : Bool) (remoteAddr : GoString) (a : Nat)
    (heap : Heap) (events : List Event) (h : Event.ctxDone ∈ events) :
    (sse canFlush remoteAddr a heap events).returned = true := by
  induction events using List.reverseRecOn with
  | nil => simp at h
  | append_singleton evs e ih =>
    rw [sse_snoc]
    rcases List.mem_append.1 h with hm | hm
    · exact sseStep_returned_mono a _ e (ih hm)
    · simp only [List.mem_singleton] at hm
      subst hm
      exact sseStep_ctxDone_returned a _

theorem sseStep_returned_cause (a : Nat) (st : Run) (e : Event)
    (h : (sseStep a st e).returned = true) :
    st.returned = true ∨ e = .ctxDone ∨ e = .recv false := by
  by_cases hr : st.returned = true
  · exact Or.inl hr
  · right
    cases e with
    | enqueue msg =>
      simp only [sseStep] at h
      split at h <;> exact absurd h hr
    | ctxDone => exact Or.inl rfl
    | recv ok =>
      cases ok with
      | false => exact Or.inr rfl
      | true =>
        cases hrecv : receive st.heap a with
        | none =>
          simp only [sseStep, hr, if_false, hrecv] at h
          exact absurd h hr
        | some p =>
          simp [sseStep, hr, hrecv] at h

theorem sse_returned_cause (remoteAddr : GoString) (a : Nat) (heap : Heap)
    (events : List Event) (h : (sse true remoteAddr a heap events).returned = true) :
    Event.ctxDone ∈ events ∨ Event.recv false ∈ events := by
  induction events using List.reverseRecOn with
  | nil => simp [sse, sseInit] at h
  | append_singleton evs e ih =>
    rw [sse_snoc] at h
    rcases sseStep_returned_cause a _ e h with h1 | h1 | h1
    · rcases ih h1 with h2 | h2
      · exact Or.inl (List.mem_append_left _ h2)
      · exact Or.inr (List.mem_append_left _ h2)
    · exact Or.inl (by simp [h1])
    · exact Or.inr (by simp [h1])

/-- Claim C11. For every call of `sse` that passes the flusher check and every
sequence of events reaching its session: the effects start with the three
headers and one register request for the new session, before anything of the
delivery loop; the requests it sends are that register request alone while
the loop runs, and the register request followed by one deregister request
for the same session once it has returned, the deregister request being its
last effect.  The call has returned after a cancellation, a failed write makes
it return, and it returns for no other reason. -/
theorem C11_register_once_deregister_once (remoteAddr : GoString) (a : Nat) (heap : Heap)
    (events : List Event) :
    (∃ rest, (sse true remoteAddr a heap events).trace =
        [.setHeader (ascii "Content-Type") (ascii "text/event-stream"),
          .setHeader (ascii "Cache-Control") (ascii "no-cache"),
          .setHeader (ascii "Access-Control-Allow-Origin") (ascii "*"),
          .send (.clientAdd (some a))] ++ rest
        ∧ sends rest =
          (if (sse true remoteAddr a heap events).returned then [.clientDel (some a)] else []))
      ∧ sends (sse true remoteAddr a heap events).trace =
          (if (sse true remoteAddr a heap events).returned
            then [.clientAdd (some a), .clientDel (some a)] else [.clientAdd (some a)])
      ∧ ((sse true remoteAddr a heap events).returned = true →
          (sse true remoteAddr a heap events).trace.getLast? =
            some (.send (.clientDel (some a))))
      ∧ (Event.ctxDone ∈ events → (sse true remoteAddr a heap events).returned = true)
      ∧ ((sse true remoteAddr a heap events).returned = false →
          ((sse true remoteAddr a heap events).heap a).msg.buf ≠ [] →
          (sse true remoteAddr a heap (events ++ [.recv false])).returned = true)
      ∧ ((sse true remoteAddr a heap events).returned = true →
          Event.ctxDone ∈ events ∨ Event.recv false ∈ events) := by
  obtain ⟨rest, htr, hs, hlast, _, _, _, _⟩ := sse_inv remoteAddr a heap events
  have hpre : (sseInit true remoteAddr a heap).trace =
      [.setHeader (ascii "Content-Type") (ascii "text/event-stream"),
        .setHeader (ascii "Cache-Control") (ascii "no-cache"),
        .setHeader (ascii "Access-Control-Allow-Origin") (ascii "*"),
        .send (.clientAdd (some a))] := rfl
  rw [hpre] at htr
  refine ⟨⟨rest, htr, hs⟩, ?_, ?_, sse_returned_of_ctxDone true remoteAddr a heap events, ?_,
    sse_returned_cause remoteAddr a heap events⟩
  · rw [htr, sends_append, hs]
    split <;> simp [sends]
  · intro hr
    have h1 := hlast hr
    rw [htr]
    cases rest with
    | nil => simp at h1
    | cons x xs =>
      rw [List.getLast?_append_of_ne_nil _ (by simp)]
      exact h1
  · intro hr hbuf
    rw [sse_snoc]
    cases hb : ((sse true remoteAddr a heap events).heap a).msg.buf with
    | nil => exact absurd hb hbuf
    | cons m ms => simp [sseStep, hr, receive, hb]

/-- Claim C12. For every session and every interleaving of enqueues and
delivery-loop events: the frames handed to `w.Write`, followed by the frames
still in the queue, are exactly the frames `client.Write` accepted, in order;
so the frames written without error are a prefix of the accepted ones; and in
the effects of the handler a flush stands right after each successful write. -/
theorem C12_delivery_in_order (remoteAddr : GoString) (a : Nat) (heap : Heap)
    (events : List Event) :
    writes (sse true remoteAddr a heap events).trace ++
        ((sse true remoteAddr a heap events).heap a).msg.buf =
        (sse true remoteAddr a heap events).accepted
      ∧ written (sse true remoteAddr a heap events).trace <+:
          writes (sse true remoteAddr a heap events).trace
      ∧ written (sse true remoteAddr a heap events).trace <+:
          (sse true remoteAddr a heap events).accepted
      ∧ (∀ pre msg post,
          (sse true remoteAddr a heap events).trace = pre ++ .write msg true :: post →
          ∃ post2, post = .flush :: post2)
      ∧ (sse true (ascii "10.0.0.7:5000") 0 exampleHeap
            [.enqueue (ascii "f1"), .enqueue (ascii "f2"), .recv true]).accepted =
          [ascii "f1", ascii "f2"]
      ∧ written (sse true (ascii "10.0.0.7:5000") 0 exampleHeap
            [.enqueue (ascii "f1"), .enqueue (ascii "f2"), .recv true]).trace =
          [ascii "f1"] := by
  obtain ⟨rest, htr, _, _, hw, hp, _, hf⟩ := sse_inv remoteAddr a heap events
  have hpw : writes (sseInit true remoteAddr a heap).trace = [] := rfl
  have hpn : written (sseInit true remoteAddr a heap).trace = [] := rfl
  have hpf : followedByFlush (sseInit true remoteAddr a heap).trace = true := rfl
  have h1 : writes (sse true remoteAddr a heap events).trace = writes rest := by
    rw [htr, writes_append, hpw, List.nil_append]
  have h2 : written (sse true remoteAddr a heap events).trace = written rest := by
    rw [htr, written_append, hpn, List.nil_append]
  refine ⟨by rw [h1]; exact hw, by rw [h1, h2]; exact hp, ?_, ?_, by decide, by decide⟩
  · rw [h2, ← hw]
    exact hp.trans (List.prefix_append _ _)
  · intro pre msg post ht
    exact followedByFlush_sound _ (by rw [htr]; exact followedByFlush_append _ _ hpf hf)
      pre msg post ht

/-! ## Requests the program sends -/

theorem sseStep_sends_nonNil (a : Nat) (st : Run) (e : Event)
    (h : ∀ q ∈ sends st.trace, q.nonNil = true) :
    ∀ q ∈ sends (sseStep a st e).trace, q.nonNil = true := by
  cases e with
  | enqueue msg =>
    simp only [sseStep]
    split <;> exact h
  | ctxDone =>
    simp only [sseStep]
    split
    · exact h
    · intro q hq
      simp only [sends_append, sends, List.mem_append, List.mem_singleton] at hq
      rcases hq with hq | rfl
      · exact h q hq
      · rfl
  | recv ok =>
    simp only [sseStep]
    split
    · exact h
    · split
      · exact h
      · split
        · intro q hq
          simp only [sends_append, sends, List.append_nil] at hq
          exact h q hq
        · intro q hq
          simp only [sends_append, sends, List.mem_append, List.mem_singleton] at hq
          rcases hq with hq | rfl
          · exact h q hq
          · rfl

theorem sse_sends_nonNil (canFlush : Bool) (remoteAddr : GoString) (a : Nat) (heap : Heap)
    (events : List Event) :
    ∀ q ∈ sends (sse canFlush remoteAddr a heap events).trace, q.nonNil = true := by
  induction events using List.reverseRecOn with
  | nil =>
    cases canFlush <;> simp [sse, sseInit, sends, Request.nonNil]
  | append_singleton evs e ih =>
    rw [sse_snoc]
    exact sseStep_sends_nonNil a _ e ih

/-- Claim C16 (as amended). From every state, every request that carries no
nil pointer (a register or deregister request for a session, or any broadcast
request) completes its iteration of the loop with a new state, and the loop
goes on through every finite sequence of such requests.  These are the
requests the program sends: every request a call of `sse` sends carries the
pointer of the client it allocated, and `broadcast` sends a broadcast
request. -/
theorem C16_loop_completes (s : State) (order : List ClientPtr) (r : Request)
    (hr : r.nonNil = true) :
    (∃ s1, loopIter s order r = .ok s1)
      ∧ (∀ evs, (∀ e ∈ evs, e.2.nonNil = true) → ∃ s2, runLoop s evs = .ok s2)
      ∧ (∀ canFlush remoteAddr a heap events,
          ∀ q ∈ sends (sse canFlush remoteAddr a heap events).trace, q.nonNil = true)
      ∧ (∀ h : HttpRequest, (Request.broadcastReq (hub.broadcast h)).nonNil = true) :=
  ⟨loopIter_ok_of_nonNil s order r hr, fun evs h => runLoop_ok_of_nonNil s evs h,
    fun canFlush remoteAddr a heap events => sse_sends_nonNil canFlush remoteAddr a heap events,
    fun _ => rfl⟩

/-- Witness of C16: a register request for the session at address 0. -/
theorem C16_loop_completes_witness :
    (Request.clientAdd (some 0)).nonNil = true
      ∧ ∃ s1, loopIter (newHub exampleHeap) [] (.clientAdd (some 0)) = .ok s1 :=
  ⟨rfl, (C16_loop_completes (newHub exampleHeap) [] (.clientAdd (some 0)) rfl).1⟩

/-- Counterexample to C16 as stated: the iteration that receives the nil
pointer on `h.clientAdd`, or on `h.clientDel`, panics when the log call reads
`c.name`. -/
theorem C16_counterexample :
    loopIter (newHub exampleHeap) [] (.clientAdd none) = .error .nilDereference
      ∧ loopIter (newHub exampleHeap) [] (.clientDel none) = .error .nilDereference :=
  ⟨rfl, rfl⟩

end Sse
